import Mathlib

/-!
Shallow embedding of `fun.py` (functional-programming utilities):
the structural pattern-matching dispatcher (`_pattern_match`, `pattern`),
the currying engine (`partial`), the memoization wrapper (`memo`), and
the dynamic rule-registration method (`add_pattern`).
-/

namespace FunPy

/-- Python runtime values relevant to the module: `None`, ints, strings,
lists and tuples.  Lists are mutable and unhashable in Python; tuples are
hashable when their elements are. -/
inductive Value where
  | none
  | int (n : Int)
  | str (s : String)
  | list (vs : List Value)
  | tuple (vs : List Value)

mutual

/-- Python value equality (`==`) on the embedded values. -/
def Value.beq : Value → Value → Bool
  | .none, .none => true
  | .int a, .int b => a == b
  | .str a, .str b => a == b
  | .list a, .list b => Value.beqList a b
  | .tuple a, .tuple b => Value.beqList a b
  | _, _ => false

/-- Elementwise equality of value sequences. -/
def Value.beqList : List Value → List Value → Bool
  | [], [] => true
  | a :: as, b :: bs => Value.beq a b && Value.beqList as bs
  | _, _ => false

end

mutual

theorem Value.beq_iff : ∀ a b : Value, Value.beq a b = true ↔ a = b
  | .none, b => by cases b <;> simp [Value.beq]
  | .int a, b => by cases b <;> simp [Value.beq]
  | .str a, b => by cases b <;> simp [Value.beq]
  | .list a, b => by
      cases b <;> simp [Value.beq]
      exact Value.beqList_iff a _
  | .tuple a, b => by
      cases b <;> simp [Value.beq]
      exact Value.beqList_iff a _

theorem Value.beqList_iff : ∀ as bs : List Value, Value.beqList as bs = true ↔ as = bs
  | [], bs => by cases bs <;> simp [Value.beqList]
  | a :: as, bs => by
      cases bs with
      | nil => simp [Value.beqList]
      | cons b bs =>
          simp [Value.beqList, Value.beq_iff a b, Value.beqList_iff as bs]

end

instance : DecidableEq Value := fun a b =>
  decidable_of_iff (Value.beq a b = true) (Value.beq_iff a b)

/-- Runtime type tags, for `isinstance`-style patterns. -/
inductive Ty where
  | intT | strT | listT | tupleT | noneT
  deriving DecidableEq

/-- `type(v)` of a value. -/
def typeOf : Value → Ty
  | .none => .noneT
  | .int _ => .intT
  | .str _ => .strT
  | .list _ => .listT
  | .tuple _ => .tupleT

/-- `isinstance(v, t)` for the flat type hierarchy used here. -/
def isInstance (v : Value) (t : Ty) : Bool := typeOf v == t

/-- Patterns, as the closed tagged union the five branches of
`_pattern_match` distinguish: a list/tuple pattern, a type, a callable
(predicate), the `Ellipsis` object, and a literal compared by `==`. -/
inductive Pattern where
  | seq (ps : List Pattern)
  | ty (t : Ty)
  | pred (f : Value → Bool)
  | ellipsis
  | lit (v : Value)

/-- `p is Ellipsis`. -/
def Pattern.isEllipsis : Pattern → Bool
  | .ellipsis => true
  | _ => false

mutual

/-- `_pattern_match(pt, args)` from `fun.py`: branch on the pattern's shape
in the source's order (list/tuple, type, callable, `Ellipsis`, literal). -/
def pattern_match : Pattern → Value → Bool
  | .seq ps, v =>
    match v with
    | .list vs => matchSeq ps vs
    | .tuple vs => matchSeq ps vs
    | _ => false
  | .ty t, v => isInstance v t
  | .pred f, v => f v
  | .ellipsis, _ => true
  | .lit p, v => Value.beq p v

/-- The `for p, a in zip(pt, args)` walk of `_pattern_match`, followed by the
`len(pt) == len(args)` check.  `zip` stops at the shorter operand, and the
final length check compares the full lists; since this recursion strips one
element from each side simultaneously, comparing the remainders for emptiness
is the same check. -/
def matchSeq : List Pattern → List Value → Bool
  | p :: ps, v :: vs =>
    if p.isEllipsis then true
    else pattern_match p v && matchSeq ps vs
  | [], [] => true
  | _, _ => false

end

/-- Keyword arguments: a Python `dict` of name/value pairs in insertion
order, keys unique. -/
abbrev Kw := List (String × Value)

/-- `lookupKw k s` is `k[s]` when present (`s in k` iff the result is
`some`): the first pair whose key equals `s`. -/
def lookupKw : Kw → String → Option Value
  | [], _ => Option.none
  | e :: k, s => if e.1 = s then some e.2 else lookupKw k s

/-- `d.copy()` followed by `copy.update(u)`: existing keys keep their
position but take `u`'s value; keys new in `u` are appended in `u`'s
order. -/
def kwUpdate (d u : Kw) : Kw :=
  d.map (fun e =>
    match lookupKw u e.1 with
    | some v => (e.1, v)
    | Option.none => e)
  ++ u.filter (fun e => (lookupKw d e.1).isNone)

/-- A rule's case value: either invocable (`callable(f)` true, called with
the full argument tuple and the keyword arguments) or a plain value,
as the explicit tagged union the source probes with `callable`. -/
inductive Handler where
  | fn (f : List Value → Kw → Value)
  | val (v : Value)

/-- `callable(f)`. -/
def Handler.isCallable : Handler → Bool
  | .fn _ => true
  | .val _ => false

/-- `f is None`: the handler is the plain value `None`. -/
def Handler.isNone : Handler → Bool
  | .val .none => true
  | _ => false

/-- Resolution of a matched rule's case value in `pattern_func`:
`if callable(f): return f(*args, **kwargs)` else `return f`. -/
def callHandler : Handler → List Value → Kw → Value
  | .fn f, args, kwargs => f args kwargs
  | .val v, _, _ => v

/-- An ordered rule list, as held by the closure of `pattern`. -/
abbrev Rules := List (Pattern × Handler)

/-- `pattern_func(*args, **kwargs)` from `fun.py`: walk the rules in
order, test each pattern against the full argument tuple, resolve the
first match's handler; `none` models the raised
`TypeError('Non-exhaustive patterns')` (the spec's `NoMatchError`). -/
def pattern_func : Rules → List Value → Kw → Option Value
  | [], _, _ => Option.none
  | (p, f) :: rest, args, kwargs =>
    if pattern_match p (.tuple args) then some (callHandler f args kwargs)
    else pattern_func rest args kwargs

/-- Result of `add_pattern(pattern, value=None)`: either the inner
`add_pattern_func` closure still awaiting the case value (decorator form),
or the rule list after the append (two-argument form; the source returns
`pattern_func`, whose behaviour is determined by this list). -/
inductive AddResult where
  | decorator (k : Handler → Rules)
  | registered (rules : Rules)

/-- `add_pattern(pattern, value=None)` from `fun.py`: if `value is None`,
return the closure that will append the rule once given a value; otherwise
append `(pattern, value)` now. -/
def add_pattern (rules : Rules) (pat : Pattern) (value : Handler) : AddResult :=
  if value.isNone then .decorator (fun v => rules ++ [(pat, v)])
  else .registered (rules ++ [(pat, value)])

/-- A Python function as the curry engine sees it: its
`__code__.co_argcount` and its call behaviour on positional plus keyword
arguments. -/
structure Fn where
  argcount : Nat
  call : List Value → Kw → Value

/-- A partially-applied stage: the closure state `(a, k)` captured by
`wrap` in `partial`. -/
structure Stage where
  a : List Value
  k : Kw

/-- What a call on a curried function returns: the wrapped function's
result, or a further stage. -/
inductive CurryResult where
  | done (v : Value)
  | stage (s : Stage)

/-- The body of `wrapper` inside `partial`: `ar = a + args`,
`kw = k.copy(); kw.update(kwargs)`; invoke `f` when
`len(ar) + len(kw) >= f.__code__.co_argcount`, else return `wrap(ar, kw)`. -/
def wrapper (f : Fn) (s : Stage) (args : List Value) (kwargs : Kw) : CurryResult :=
  let ar := s.a ++ args
  let kw := kwUpdate s.k kwargs
  if f.argcount ≤ ar.length + kw.length then .done (f.call ar kw)
  else .stage ⟨ar, kw⟩

/-- `partial(f, *args, **kwargs)` returns `wrap(args, kwargs)`: the
initial stage. -/
def partialStage (args : List Value) (kwargs : Kw) : Stage := ⟨args, kwargs⟩

/-- Calling a curry-chain intermediate result with positional arguments:
only a stage is invocable as a further partial application. -/
def applyStep (f : Fn) (r : CurryResult) (l : List Value) : Option CurryResult :=
  match r with
  | .stage s => some (wrapper f s l [])
  | .done _ => Option.none

/-- Sequentially apply a chain of positional-argument packs. -/
def applyChain (f : Fn) (r : CurryResult) : List (List Value) → Option CurryResult
  | [] => some r
  | l :: ls =>
    match applyStep f r l with
    | some r2 => applyChain f r2 ls
    | Option.none => Option.none

/-- A partition of positional arguments reaches the wrapped function
exactly at its last pack: every proper prefix stays strictly below the
required count `n`, and the whole partition reaches it. -/
def chainOk (n acc : Nat) : List (List Value) → Bool
  | [] => false
  | [l] => decide (n ≤ acc + l.length)
  | l :: ls => decide (acc + l.length < n) && chainOk n (acc + l.length) ls

mutual

/-- `hash(v)` succeeds: ints, strings and `None` are hashable, lists are
not, tuples are hashable when every element is. -/
def hashable : Value → Bool
  | .none => true
  | .int _ => true
  | .str _ => true
  | .list _ => false
  | .tuple vs => hashableList vs

/-- All elements of a sequence are hashable. -/
def hashableList : List Value → Bool
  | [] => true
  | v :: vs => hashable v && hashableList vs

end

/-- The memo cache `d`: results keyed by the positional argument tuple,
in insertion order. -/
abbrev Cache := List (List Value × Value)

/-- `args in d` / `d[args]`: dictionary lookup keyed by the argument
tuple. -/
def cacheLookup : Cache → List Value → Option Value
  | [], _ => Option.none
  | e :: d, args => if e.1 = args then some e.2 else cacheLookup d args

/-- The body of `wrapper` inside `memo`: `args in d` raises `TypeError`
when the argument tuple is unhashable, in which case the function is
called directly and the cache left untouched; otherwise return the cached
result if present, else `d.setdefault(args, f(*args))`. -/
def memo_wrapper (f : List Value → Value) (d : Cache) (args : List Value) :
    Value × Cache :=
  if hashableList args then
    match cacheLookup d args with
    | some v => (v, d)
    | Option.none => (f args, d ++ [(args, f args)])
  else (f args, d)

/-- The 4-parameter sum function of the docstring example of `partial`
(`add4(a, b, c, d) = a + b + c + d` on ints). -/
def sum4 : Fn where
  argcount := 4
  call := fun args _ => .int ((args.map fun v =>
    match v with
    | .int n => n
    | _ => 0).sum)

/-! ## Helper lemmas -/

theorem lookupKw_append (xs ys : Kw) (s : String) :
    lookupKw (xs ++ ys) s =
      match lookupKw xs s with
      | some v => some v
      | Option.none => lookupKw ys s := by
  induction xs with
  | nil => simp [lookupKw]
  | cons e xs ih =>
      by_cases h : e.1 = s
      · simp [lookupKw, h]
      · simp [lookupKw, h, ih]

theorem lookupKw_mapOverlay (d u : Kw) (s : String) :
    lookupKw (d.map fun e =>
        match lookupKw u e.1 with
        | some v => (e.1, v)
        | Option.none => e) s =
      match lookupKw d s with
      | Option.none => Option.none
      | some w =>
        match lookupKw u s with
        | some v => some v
        | Option.none => some w := by
  induction d with
  | nil => simp [lookupKw]
  | cons e d ih =>
      by_cases h : e.1 = s
      · subst h
        cases hu : lookupKw u e.1 <;> simp [lookupKw, hu]
      · cases hu : lookupKw u e.1 <;> simp [lookupKw, hu, h, ih]

theorem lookupKw_filter_of_not_mem (d u : Kw) (s : String)
    (hd : lookupKw d s = Option.none) :
    lookupKw (u.filter fun e => (lookupKw d e.1).isNone) s = lookupKw u s := by
  induction u with
  | nil => simp
  | cons e u ih =>
      by_cases h : e.1 = s
      · subst h
        simp [List.filter_cons, hd, lookupKw]
      · cases hp : (lookupKw d e.1).isNone <;>
          simp [List.filter_cons, hp, lookupKw, h, ih]

/-- Merged-keyword lookup: the overlay `kwUpdate d u` resolves a key to
`u`'s value when `u` binds it, else to `d`'s value. -/
theorem kwUpdate_lookup (d u : Kw) (s : String) :
    lookupKw (kwUpdate d u) s =
      match lookupKw u s with
      | some v => some v
      | Option.none => lookupKw d s := by
  unfold kwUpdate
  rw [lookupKw_append, lookupKw_mapOverlay]
  cases hd : lookupKw d s with
  | none =>
      rw [lookupKw_filter_of_not_mem d u s hd]
      cases hu : lookupKw u s <;> simp [hd]
  | some w => cases hu : lookupKw u s <;> simp

theorem pattern_func_append_of_no_match (pre rules : Rules) (args : List Value)
    (kw : Kw) (hpre : ∀ r ∈ pre, pattern_match r.1 (.tuple args) = false) :
    pattern_func (pre ++ rules) args kw = pattern_func rules args kw := by
  induction pre with
  | nil => rfl
  | cons r pre ih =>
      have hr := hpre r (List.mem_cons_self r pre)
      have hrest : ∀ r2 ∈ pre, pattern_match r2.1 (.tuple args) = false :=
        fun r2 hmem => hpre r2 (List.mem_cons_of_mem r hmem)
      cases r with
      | mk p h => simp only [List.cons_append, pattern_func, hr]; exact ih hrest

theorem pattern_func_cons_of_match (p : Pattern) (h : Handler) (rest : Rules)
    (args : List Value) (kw : Kw) (hp : pattern_match p (.tuple args) = true) :
    pattern_func ((p, h) :: rest) args kw = some (callHandler h args kw) := by
  simp [pattern_func, hp]

/-! ## Claim theorems -/

/-- C1: dispatching against a rule list returns the result associated
with the first rule (in insertion order) whose pattern matches the
argument tuple, whatever the later rules are; and when a second matching
rule follows, swapping the two makes dispatch return the formerly-second
rule's result. -/
theorem dispatch_first_match_wins (pre : Rules) (p : Pattern) (h : Handler)
    (args : List Value) (kw : Kw)
    (hpre : ∀ r ∈ pre, pattern_match r.1 (.tuple args) = false)
    (hp : pattern_match p (.tuple args) = true) :
    (∀ rest : Rules,
      pattern_func (pre ++ (p, h) :: rest) args kw = some (callHandler h args kw))
    ∧ ∀ (p2 : Pattern) (h2 : Handler) (rest : Rules),
        pattern_match p2 (.tuple args) = true →
        pattern_func (pre ++ (p, h) :: (p2, h2) :: rest) args kw
            = some (callHandler h args kw)
        ∧ pattern_func (pre ++ (p2, h2) :: (p, h) :: rest) args kw
            = some (callHandler h2 args kw) := by
  constructor
  · intro rest
    rw [pattern_func_append_of_no_match pre _ args kw hpre]
    exact pattern_func_cons_of_match p h rest args kw hp
  · intro p2 h2 rest hp2
    constructor
    · rw [pattern_func_append_of_no_match pre _ args kw hpre]
      exact pattern_func_cons_of_match p h ((p2, h2) :: rest) args kw hp
    · rw [pattern_func_append_of_no_match pre _ args kw hpre]
      exact pattern_func_cons_of_match p2 h2 ((p, h) :: rest) args kw hp2

/-- Witness for C1 at a concrete input: two rules that both match `(0,)`;
in either order, the first one's result is returned. -/
theorem dispatch_first_match_wins_witness :
    pattern_func [(.ellipsis, .val (.int 7)), (.seq [.ty .intT], .val (.int 8))]
        [.int 0] [] = some (.int 7)
    ∧ pattern_func [(.seq [.ty .intT], .val (.int 8)), (.ellipsis, .val (.int 7))]
        [.int 0] [] = some (.int 8) := by
  have h := dispatch_first_match_wins [] .ellipsis (.val (.int 7)) [.int 0] []
    (by simp) (by decide)
  have h2 := h.2 (.seq [.ty .intT]) (.val (.int 8)) [] (by decide)
  exact ⟨h2.1, h2.2⟩

/-- C2 counterexample: contrary to the claim, the pattern `(1, ...)` does
NOT structurally match the argument tuple `(1,)`: `zip` stops before the
`Ellipsis` is reached and the final `len(pt) == len(args)` check fails. -/
theorem catchall_shorter_tuple_counterexample :
    pattern_match (.seq [.lit (.int 1), .ellipsis]) (.tuple [.int 1]) = false := by
  decide

/-- C2 (amended): `(1, ...)` matches `(1, 2)` and `(1, 2, 3)` but not
`(1,)`; in general, whenever the zip walk reaches the catch-all marker —
which requires the value to still have an element at the marker's
position — the whole sequence match succeeds immediately, regardless of
how many pattern items or value elements remain. -/
theorem catchall_short_circuit :
    pattern_match (.seq [.lit (.int 1), .ellipsis]) (.tuple [.int 1, .int 2]) = true
    ∧ pattern_match (.seq [.lit (.int 1), .ellipsis])
        (.tuple [.int 1, .int 2, .int 3]) = true
    ∧ pattern_match (.seq [.lit (.int 1), .ellipsis]) (.tuple [.int 1]) = false
    ∧ ∀ (ps qs : List Pattern) (vs ws : List Value) (v : Value),
        List.Forall₂ (fun p v => pattern_match p v = true) ps vs →
        matchSeq (ps ++ Pattern.ellipsis :: qs) (vs ++ v :: ws) = true := by
  refine ⟨by decide, by decide, by decide, ?_⟩
  intro ps qs vs ws v hall
  induction hall with
  | nil => simp [matchSeq, Pattern.isEllipsis]
  | cons hpv _ ih =>
      rename_i p v2 ps2 vs2 _
      cases he : p.isEllipsis with
      | true => simp [matchSeq, he]
      | false => simp [matchSeq, he, hpv, ih]

/-- Witness for C2's amended general part: reaching the marker after one
matching element succeeds with two value elements remaining. -/
theorem catchall_short_circuit_witness :
    matchSeq [Pattern.lit (.int 5), Pattern.ellipsis]
        [Value.int 5, Value.int 9, Value.int 8] = true :=
  catchall_short_circuit.2.2.2 [.lit (.int 5)] [] [.int 5] [.int 8] (.int 9)
    (List.Forall₂.cons (by decide) List.Forall₂.nil)

/-- C3: sequence matching without a catch-all marker is arity-exact:
`(int, int)` fails against `(1,)` and `(1, 2, 3)` and succeeds against
`(1, 2)`; in general, when no pattern item is the marker, the walk
succeeds exactly for values of equal length whose elements match
pairwise. -/
theorem seq_match_arity_exact :
    pattern_match (.seq [.ty .intT, .ty .intT]) (.tuple [.int 1]) = false
    ∧ pattern_match (.seq [.ty .intT, .ty .intT])
        (.tuple [.int 1, .int 2, .int 3]) = false
    ∧ pattern_match (.seq [.ty .intT, .ty .intT]) (.tuple [.int 1, .int 2]) = true
    ∧ ∀ (ps : List Pattern) (vs : List Value),
        (∀ p ∈ ps, p.isEllipsis = false) →
        (matchSeq ps vs = true ↔
          List.Forall₂ (fun p v => pattern_match p v = true) ps vs) := by
  refine ⟨by decide, by decide, by decide, ?_⟩
  intro ps
  induction ps with
  | nil =>
      intro vs _
      cases vs <;> simp [matchSeq]
  | cons p ps ih =>
      intro vs hno
      have hp : p.isEllipsis = false := hno p (List.mem_cons_self p ps)
      have hrest : ∀ q ∈ ps, q.isEllipsis = false :=
        fun q hq => hno q (List.mem_cons_of_mem p hq)
      cases vs with
      | nil => simp [matchSeq, List.forall₂_nil_right_iff]
      | cons v vs => simp [matchSeq, hp, ih vs hrest]

/-- Witness for C3's general part at a concrete input. -/
theorem seq_match_arity_exact_witness :
    matchSeq [Pattern.ty .intT] [Value.int 3] = true :=
  (seq_match_arity_exact.2.2.2 [.ty .intT] [.int 3] (by decide)).mpr
    (List.Forall₂.cons (by decide) List.Forall₂.nil)

/-- C5: for a wrapped function requiring `n` parameters, any partition of
positional arguments across sequential partial applications that stays
below `n` until its last pack and then reaches it yields the wrapped
function applied to the concatenation of all packs — the same result as
one direct call; concretely, the curried 4-parameter sum applied to
`(0)`, `(0)`, `(3, 1)` equals the direct call on `(0, 0, 3, 1)`. -/
theorem partial_partition_invariance :
    (∀ (f : Fn) (P : List (List Value)) (acc : List Value),
        chainOk f.argcount acc.length P = true →
        applyChain f (.stage ⟨acc, []⟩) P
          = some (.done (f.call (acc ++ P.flatten) [])))
    ∧ applyChain sum4 (.stage (partialStage [] []))
        [[.int 0], [.int 0], [.int 3, .int 1]]
        = some (.done (sum4.call [.int 0, .int 0, .int 3, .int 1] []))
    ∧ sum4.call [.int 0, .int 0, .int 3, .int 1] [] = .int 4 := by
  refine ⟨?_, by rfl, by rfl⟩
  intro f P
  induction P with
  | nil => intro acc h; simp [chainOk] at h
  | cons l ls ih =>
      intro acc h
      cases ls with
      | nil =>
          simp only [chainOk, decide_eq_true_eq] at h
          simp [applyChain, applyStep, wrapper, kwUpdate]
          omega
      | cons l2 ls2 =>
          simp only [chainOk, Bool.and_eq_true, decide_eq_true_eq] at h
          obtain ⟨h1, h2⟩ := h
          have hstep : applyChain f (.stage ⟨acc, []⟩) (l :: l2 :: ls2)
              = applyChain f (.stage ⟨acc ++ l, []⟩) (l2 :: ls2) := by
            have hw : wrapper f ⟨acc, []⟩ l [] = .stage ⟨acc ++ l, []⟩ := by
              simp [wrapper, kwUpdate]
              omega
            simp [applyChain, applyStep, hw]
          rw [hstep, ih (acc ++ l) (by simpa [List.length_append] using h2)]
          simp [List.append_assoc]

/-- Witness for C5's general part: a 2-pack partition of four arguments
through the curried sum reaches the direct-call result. -/
theorem partial_partition_invariance_witness :
    applyChain sum4 (.stage ⟨[], []⟩) [[.int 1, .int 2], [.int 3, .int 4]]
      = some (.done (.int 10)) := by
  have h := partial_partition_invariance.1 sum4
    [[.int 1, .int 2], [.int 3, .int 4]] [] (by decide)
  exact h.trans rfl

/-- C6: a curry stage is never changed by applying it — each completion's
result is determined by the stage's originally accumulated positional
sequence and keyword mapping plus only that completion's own arguments,
so two completions of the same stage never observe each other's
arguments. -/
theorem stage_reuse_no_leakage (f : Fn) (s : Stage) (a1 a2 : List Value)
    (k1 k2 : Kw) (v1 v2 : Value)
    (h1 : wrapper f s a1 k1 = .done v1) (h2 : wrapper f s a2 k2 = .done v2) :
    v1 = f.call (s.a ++ a1) (kwUpdate s.k k1)
    ∧ v2 = f.call (s.a ++ a2) (kwUpdate s.k k2) := by
  constructor
  · by_cases hc : f.argcount ≤ s.a.length + a1.length + (kwUpdate s.k k1).length
    · simp [wrapper, hc] at h1
      exact h1.symm
    · simp [wrapper, hc] at h1
  · by_cases hc : f.argcount ≤ s.a.length + a2.length + (kwUpdate s.k k2).length
    · simp [wrapper, hc] at h2
      exact h2.symm
    · simp [wrapper, hc] at h2

/-- Witness for C6: the stage holding `(1, 2, 3)` completed once with `4`
and once with `5`; each result is the sum of the original accumulation
and only that completion's argument. -/
theorem stage_reuse_no_leakage_witness :
    Value.int 10
      = sum4.call ([Value.int 1, .int 2, .int 3] ++ [.int 4]) (kwUpdate [] [])
    ∧ Value.int 11
      = sum4.call ([Value.int 1, .int 2, .int 3] ++ [.int 5]) (kwUpdate [] []) :=
  stage_reuse_no_leakage sum4 ⟨[.int 1, .int 2, .int 3], []⟩ [.int 4] [.int 5]
    [] [] (.int 10) (.int 11) (by rfl) (by rfl)

/-- C7: the merged keyword mapping resolves every key to the newly
supplied value when present, else to the previously accumulated one; the
wrapped function is invoked exactly when the merged positional length
plus the merged keyword length reaches its required-parameter count, and
otherwise a new stage carrying the merged arguments is returned. -/
theorem wrapper_merge_spec (f : Fn) (s : Stage) (args : List Value) (kwargs : Kw) :
    (∀ key, lookupKw (kwUpdate s.k kwargs) key =
        match lookupKw kwargs key with
        | some v => some v
        | Option.none => lookupKw s.k key)
    ∧ (f.argcount ≤ (s.a ++ args).length + (kwUpdate s.k kwargs).length →
        wrapper f s args kwargs
          = .done (f.call (s.a ++ args) (kwUpdate s.k kwargs)))
    ∧ ((s.a ++ args).length + (kwUpdate s.k kwargs).length < f.argcount →
        wrapper f s args kwargs = .stage ⟨s.a ++ args, kwUpdate s.k kwargs⟩) := by
  refine ⟨fun key => kwUpdate_lookup s.k kwargs key, fun hc => ?_, fun hc => ?_⟩
  · rw [List.length_append] at hc
    simp [wrapper, hc]
  · rw [List.length_append] at hc
    simp [wrapper, Nat.not_le.mpr hc]

/-- Witness for C7: a threshold-reaching application invokes the wrapped
function on the merged arguments (new keyword value wins over the old
one for the colliding key `x`). -/
theorem wrapper_merge_spec_witness :
    wrapper sum4 ⟨[.int 1], [("x", .int 2)]⟩ [.int 3] [("x", .int 4), ("y", .int 5)]
      = .done (sum4.call ([Value.int 1] ++ [.int 3])
          (kwUpdate [("x", .int 2)] [("x", .int 4), ("y", .int 5)]))
    ∧ lookupKw (kwUpdate [("x", .int 2)] [("x", .int 4), ("y", .int 5)]) "x"
      = some (.int 4) := by
  have h := wrapper_merge_spec sum4 ⟨[.int 1], [("x", .int 2)]⟩ [.int 3]
    [("x", .int 4), ("y", .int 5)]
  refine ⟨h.2.1 (by rfl), (h.1 "x").trans (by rfl)⟩

/-- C4: dispatch fails (the raised `TypeError('Non-exhaustive patterns')`,
the spec's `NoMatchError`, modelled as `none`) exactly when no rule's
pattern matches the argument tuple — in particular always when the rule
list is empty — and this is the dispatcher's only failure mode of its
own. -/
theorem dispatch_no_match_fails (rules : Rules) (args : List Value) (kw : Kw) :
    pattern_func rules args kw = Option.none ↔
      ∀ r ∈ rules, pattern_match r.1 (.tuple args) = false := by
  induction rules with
  | nil => simp [pattern_func]
  | cons r rest ih =>
      cases r with
      | mk p h =>
          cases hp : pattern_match p (.tuple args) with
          | true => simp [pattern_func, hp]
          | false => simp [pattern_func, hp, ih]

/-- Witness for C4: dispatch on the empty rule list, and on a single rule
whose pattern does not match, fails. -/
theorem dispatch_no_match_fails_witness :
    pattern_func [] [Value.int 6] [] = Option.none
    ∧ pattern_func [(.lit (.int 5), .val (.int 0))] [Value.int 6] []
        = Option.none :=
  ⟨(dispatch_no_match_fails [] [Value.int 6] []).mpr (by simp),
   (dispatch_no_match_fails [(.lit (.int 5), .val (.int 0))] [Value.int 6] []).mpr
     (by decide)⟩

/-- C8: on the first matching rule, an invocable handler is called with
the full original argument tuple and all keyword arguments and its result
returned; a non-invocable handler is returned unchanged, with any
supplied keyword arguments silently dropped (the result is the same for
every keyword mapping). -/
theorem dispatch_handler_resolution (pre rest : Rules) (p : Pattern)
    (h : Handler) (args : List Value)
    (hpre : ∀ r ∈ pre, pattern_match r.1 (.tuple args) = false)
    (hp : pattern_match p (.tuple args) = true) :
    (∀ f, h = .fn f → ∀ kw : Kw,
      pattern_func (pre ++ (p, h) :: rest) args kw = some (f args kw))
    ∧ ∀ v, h = .val v → ∀ kw : Kw,
      pattern_func (pre ++ (p, h) :: rest) args kw = some v := by
  constructor
  · intro f hf kw
    subst hf
    rw [pattern_func_append_of_no_match pre _ args kw hpre]
    exact pattern_func_cons_of_match p (.fn f) rest args kw hp
  · intro v hv kw
    subst hv
    rw [pattern_func_append_of_no_match pre _ args kw hpre]
    exact pattern_func_cons_of_match p (.val v) rest args kw hp

/-- Witness for C8: a matched plain-value rule returns the value itself
and ignores the supplied keyword argument. -/
theorem dispatch_handler_resolution_witness :
    pattern_func [(.ellipsis, .val (.int 3))] [Value.str "q"] [("k", .int 9)]
      = some (.int 3) :=
  (dispatch_handler_resolution [] [] .ellipsis (.val (.int 3)) [.str "q"]
      (by simp) (by decide)).2 (.int 3) rfl [("k", .int 9)]

theorem cacheLookup_eq_some (d : Cache) (args : List Value) (v : Value)
    (h : cacheLookup d args = some v) : (args, v) ∈ d := by
  induction d with
  | nil => simp [cacheLookup] at h
  | cons e d ih =>
      by_cases he : e.1 = args
      · simp [cacheLookup, he] at h
        subst h
        subst he
        exact List.mem_cons_self e d
      · simp [cacheLookup, he] at h
        exact List.mem_cons_of_mem e (ih h)

/-- C9: the memo wrapper returns the unwrapped function's value whenever
the cache is consistent with the function (in particular always, since
entries are only ever created from the function's own results); on an
unhashable argument tuple it bypasses the cache entirely — the cache is
left untouched and the function called directly, with no error — and the
updated cache stays consistent. -/
theorem memo_cache_spec (f : List Value → Value) (d : Cache)
    (args : List Value) (hcons : ∀ e ∈ d, e.2 = f e.1) :
    (memo_wrapper f d args).1 = f args
    ∧ (hashableList args = false → memo_wrapper f d args = (f args, d))
    ∧ ∀ e ∈ (memo_wrapper f d args).2, e.2 = f e.1 := by
  refine ⟨?_, ?_, ?_⟩
  · cases hh : hashableList args with
    | false => simp [memo_wrapper, hh]
    | true =>
        cases hl : cacheLookup d args with
        | none => simp [memo_wrapper, hh, hl]
        | some v =>
            simp [memo_wrapper, hh, hl]
            exact hcons (args, v) (cacheLookup_eq_some d args v hl)
  · intro hh
    simp [memo_wrapper, hh]
  · cases hh : hashableList args with
    | false => simpa [memo_wrapper, hh] using hcons
    | true =>
        cases hl : cacheLookup d args with
        | none =>
            simp only [memo_wrapper, hh, hl, if_true]
            intro e he
            rcases List.mem_append.mp he with hmem | hmem
            · exact hcons e hmem
            · simp at hmem
              simp [hmem]
        | some v => simpa [memo_wrapper, hh, hl] using hcons

/-- Witness for C9: calling with an unhashable argument (a list) bypasses
the empty cache and returns the direct result. -/
theorem memo_cache_spec_witness :
    memo_wrapper (fun _ => Value.int 0) [] [Value.list []]
      = (Value.int 0, []) :=
  (memo_cache_spec (fun _ => Value.int 0) [] [Value.list []] (by simp)).2.1
    (by rfl)

/-- C10: registration with an explicit `None` handler value behaves as if
the value parameter were absent: no rule is appended and the decorator
closure awaiting the handler is returned, so `None` can never be
registered through the two-argument form; any non-`None` handler is
appended immediately. -/
theorem add_pattern_none_decorator (rules : Rules) (pat : Pattern) :
    add_pattern rules pat (.val .none)
      = .decorator (fun v => rules ++ [(pat, v)])
    ∧ (∀ rs : Rules, add_pattern rules pat (.val .none) ≠ .registered rs)
    ∧ ∀ h : Handler, h.isNone = false →
        add_pattern rules pat h = .registered (rules ++ [(pat, h)]) := by
  refine ⟨rfl, ?_, ?_⟩
  · intro rs hcontra
    rw [show add_pattern rules pat (.val .none)
        = .decorator (fun v => rules ++ [(pat, v)]) from rfl] at hcontra
    exact AddResult.noConfusion hcontra
  · intro h hn
    simp [add_pattern, hn]

/-- Witness for C10: a non-`None` handler is registered immediately by
the two-argument form. -/
theorem add_pattern_none_decorator_witness :
    add_pattern [] .ellipsis (.val (.int 1))
      = .registered [(.ellipsis, .val (.int 1))] :=
  (add_pattern_none_decorator [] .ellipsis).2.2 (.val (.int 1)) (by rfl)

end FunPy
